import Mathlib

/-!
Shallow embedding of the NeuroFinance pipeline core
(`backend/services/data_aggregator.py`, `backend/services/volatility_predictor.py`,
`backend/app/main.py`) and verification of its specification claims.

Numeric score arithmetic (Python floats / numpy) is embedded over `ℚ`;
wall-clock timestamps and human-readable reasoning strings are omitted from the
records, as no claim mentions them.
-/

namespace NeuroFinance

/-! ## Data model -/

/-- A news article (`models.schemas.NewsItem` as used by `DataAggregator`).
The `id` fingerprint is an md5 hex digest in the source; it is embedded
abstractly as a natural number. Timestamps are omitted. -/
structure NewsItem where
  id : Nat
  title : String
  content : String
  url : String
  source : String
  symbols : List String
deriving DecidableEq

/-- The fields of a `SentimentAnalysis` result that the predictor reads:
`scores.get("positive", 0)`, `scores.get("negative", 0)`, `confidence`,
and the extracted `entities` list. -/
structure SentimentAnalysis where
  pos : ℚ
  neg : ℚ
  confidence : ℚ
  entities : List String
deriving DecidableEq

/-- One entry of `sentiment_history[symbol]`: the dict
`{"sentiment": .., "confidence": .., "scores": .., "timestamp": ..}` restricted
to the fields later read back (the two score components and the confidence). -/
structure Obs where
  pos : ℚ
  neg : ℚ
  confidence : ℚ
deriving DecidableEq

/-- The history entry recorded for a result in `generate_signals`. -/
def obsOf (r : SentimentAnalysis) : Obs :=
  { pos := r.pos, neg := r.neg, confidence := r.confidence }

/-- Net sentiment of one observation:
`scores.get("positive", 0) - scores.get("negative", 0)`. -/
def net (o : Obs) : ℚ := o.pos - o.neg

/-! ## Bounded deque -/

/-- `collections.deque(maxlen=cap).append x`: append on the right, evicting the
oldest (leftmost) element when the deque is full. -/
def pushCap {α : Type} (cap : Nat) (l : List α) (x : α) : List α :=
  if l.length = cap then l.tail ++ [x] else l ++ [x]

/-! ## DataAggregator: dedup ledger -/

/-- `DataAggregator.__init__`: `processed_ids = deque(maxlen=100000)`. -/
def LEDGER_CAP : Nat := 100000

/-- Mutable aggregator state: the dedup ledger `processed_ids` and the
`daily_count` counter. -/
structure AggState where
  processed_ids : List Nat
  daily_count : Nat
deriving DecidableEq

/-- The loop body of `_deduplicate`: `seen` is the `seen_ids` set (it only
grows), `ledger` the `processed_ids` deque (it evicts at capacity). Returns
the `unique_articles` output and the final ledger. -/
def dedupGo (cap : Nat) (seen ledger : List Nat) :
    List NewsItem → List NewsItem × List Nat
  | [] => ([], ledger)
  | a :: rest =>
    if a.id ∈ seen then dedupGo cap seen ledger rest
    else
      let r := dedupGo cap (a.id :: seen) (pushCap cap ledger a.id) rest
      (a :: r.1, r.2)

/-- `DataAggregator._deduplicate`: `seen_ids = set(self.processed_ids)`, then
keep each article whose id is unseen, recording it in both the set and the
ledger deque. -/
def deduplicate (st : AggState) (articles : List NewsItem) :
    List NewsItem × AggState :=
  let r := dedupGo LEDGER_CAP st.processed_ids st.processed_ids articles
  (r.1, { st with processed_ids := r.2 })

/-- `DataAggregator.get_daily_count`: returns the counter, state untouched. -/
def get_daily_count (st : AggState) : Nat × AggState :=
  (st.daily_count, st)

/-! ## Lemmas about the dedup ledger -/

theorem pushCap_length_le {α : Type} (cap : Nat) (hcap : 0 < cap)
    (l : List α) (x : α) (hl : l.length ≤ cap) :
    (pushCap cap l x).length ≤ cap := by
  unfold pushCap
  by_cases h : l.length = cap
  · rw [if_pos h, List.length_append, List.length_tail]
    simp only [List.length_singleton]
    omega
  · rw [if_neg h, List.length_append]
    simp only [List.length_singleton]
    omega

theorem foldl_pushCap (cap : Nat) (hcap : 0 < cap) :
    ∀ (xs : List Nat) (l : List Nat), l.length ≤ cap →
      xs.foldl (pushCap cap) l = (l ++ xs).drop (l.length + xs.length - cap) := by
  intro xs
  induction xs with
  | nil =>
    intro l hl
    rw [List.foldl_nil, List.append_nil, List.length_nil, Nat.add_zero,
      Nat.sub_eq_zero_of_le hl, List.drop_zero]
  | cons x xs ih =>
    intro l hl
    rw [List.foldl_cons]
    by_cases h : l.length = cap
    · have hlt : l ≠ [] := by
        intro hnil; rw [hnil] at h; simp at h; omega
      obtain ⟨a, t, rfl⟩ := List.exists_cons_of_ne_nil hlt
      have hp : pushCap cap (a :: t) x = t ++ [x] := by
        unfold pushCap
        rw [if_pos h]
        rfl
      rw [hp, ih (t ++ [x]) (by simp at h ⊢; omega)]
      have h1 : (t ++ [x]).length + xs.length - cap = xs.length := by
        simp at h ⊢; omega
      have h2 : (a :: t).length + (x :: xs).length - cap = 1 + xs.length := by
        simp at h ⊢; omega
      rw [h1, h2, Nat.add_comm 1 xs.length]
      simp only [List.cons_append, List.append_assoc, List.singleton_append,
        List.nil_append, List.drop_succ_cons]
    · have hp : pushCap cap l x = l ++ [x] := by
        unfold pushCap
        rw [if_neg h]
      rw [hp, ih (l ++ [x]) (by simp; omega)]
      have e1 : (l ++ [x]) ++ xs = l ++ x :: xs := by simp
      have e2 : (l ++ [x]).length + xs.length - cap =
          l.length + (x :: xs).length - cap := by
        simp only [List.length_append, List.length_singleton, List.length_cons,
          List.length_nil]
        omega
      rw [e1, e2]

/-- The cumulative forwarded output of `dedupGo`, counted per fingerprint:
a fingerprint already `seen` is never forwarded; otherwise it is forwarded
exactly once iff it occurs in the input. -/
theorem dedupGo_count (cap : Nat) :
    ∀ (rest : List NewsItem) (seen ledger : List Nat) (f : Nat),
      ((dedupGo cap seen ledger rest).1.filter (fun b => b.id = f)).length =
        if f ∈ seen then 0 else if f ∈ rest.map NewsItem.id then 1 else 0 := by
  intro rest
  induction rest with
  | nil =>
    intro seen ledger f
    simp [dedupGo]
  | cons a rest ih =>
    intro seen ledger f
    rw [dedupGo]
    by_cases ha : a.id ∈ seen
    · rw [if_pos ha, ih]
      by_cases hf : f ∈ seen
      · rw [if_pos hf, if_pos hf]
      · rw [if_neg hf, if_neg hf]
        have hfa : ¬ f = a.id := fun h => hf (h ▸ ha)
        rw [List.map_cons]
        rw [if_congr (List.mem_cons.trans (or_iff_right hfa)) rfl rfl]
    · rw [if_neg ha]
      by_cases hfa : a.id = f
      · have hpa : (fun b : NewsItem => decide (b.id = f)) a = true := by
          simp [hfa]
        rw [List.filter_cons, if_pos hpa, List.length_cons, ih]
        have hfseen : ¬ f ∈ seen := fun h => ha (hfa ▸ h)
        rw [if_pos (show f ∈ a.id :: seen from by
          rw [hfa]; exact List.mem_cons_self _ _)]
        rw [if_neg hfseen, List.map_cons,
          if_pos (List.mem_cons.2 (Or.inl hfa.symm))]
      · have hpa : ¬ (fun b : NewsItem => decide (b.id = f)) a = true := by
          simp [hfa]
        rw [List.filter_cons, if_neg hpa, ih]
        by_cases hf : f ∈ seen
        · rw [if_pos hf, if_pos (List.mem_cons_of_mem _ hf)]
        · have hfa2 : ¬ f = a.id := fun h => hfa h.symm
          rw [if_neg hf,
            if_neg (show ¬ f ∈ a.id :: seen from by
              rw [List.mem_cons]; exact fun h => h.elim hfa2 hf)]
          rw [List.map_cons]
          rw [if_congr (List.mem_cons.trans (or_iff_right hfa2)) rfl rfl]

/-- When the input ids are fresh and pairwise distinct, `dedupGo` keeps every
item, so the final ledger is the fold of the deque append over the input ids. -/
theorem dedupGo_ledger (cap : Nat) :
    ∀ (rest : List NewsItem) (seen ledger : List Nat),
      (∀ a ∈ rest, a.id ∉ seen) → (rest.map NewsItem.id).Nodup →
      (dedupGo cap seen ledger rest).2 =
        (rest.map NewsItem.id).foldl (pushCap cap) ledger := by
  intro rest
  induction rest with
  | nil => intro seen ledger _ _; simp [dedupGo]
  | cons a rest ih =>
    intro seen ledger hfresh hnd
    rw [dedupGo, if_neg (hfresh a (List.mem_cons_self _ _))]
    simp only [List.map_cons, List.foldl_cons]
    rw [List.map_cons, List.nodup_cons] at hnd
    exact ih _ _
      (by
        intro b hb hmem
        rcases List.mem_cons.1 hmem with h1 | h2
        · exact hnd.1 (h1 ▸ List.mem_map_of_mem NewsItem.id hb)
        · exact hfresh b (List.mem_cons_of_mem _ hb) h2)
      hnd.2

/-- Ledger length invariant for arbitrary inputs. -/
theorem dedupGo_ledger_le (cap : Nat) (hcap : 0 < cap) :
    ∀ (rest : List NewsItem) (seen ledger : List Nat),
      ledger.length ≤ cap → (dedupGo cap seen ledger rest).2.length ≤ cap := by
  intro rest
  induction rest with
  | nil => intro seen ledger h; simpa [dedupGo] using h
  | cons a rest ih =>
    intro seen ledger h
    rw [dedupGo]
    by_cases ha : a.id ∈ seen
    · rw [if_pos ha]; exact ih seen ledger h
    · rw [if_neg ha]
      exact ih _ _ (pushCap_length_le cap hcap ledger a.id h)

/-! ## VolatilityPredictor -/

/-- Discrete signal kinds produced by `_calculate_signal`. -/
inductive SignalType
  | BUY
  | SELL
  | HOLD
deriving DecidableEq

/-- `models.schemas.MarketSignal`, minus the wall-clock timestamp and the
display-only `reasoning` string. -/
structure MarketSignal where
  symbol : String
  signal : SignalType
  strength : ℚ
  sentiment_score : ℚ
  volume : Nat
  volatility_prediction : ℚ
  confidence : ℚ
deriving DecidableEq

/-- `models.schemas.VolatilityPrediction`, minus the timestamp; the `factors`
dict is flattened into its three keys. -/
structure VolatilityPrediction where
  symbol : String
  predicted_volatility : ℚ
  confidence : ℚ
  time_horizon : String
  sentiment_variance : ℚ
  volume : Nat
  momentum : ℚ
deriving DecidableEq

/-- Mutable predictor state: the per-symbol `sentiment_history` windows
(`defaultdict(lambda: deque(maxlen=100))`, embedded as an association list)
and the `current_signals` cache. -/
structure PredState where
  sentiment_history : List (String × List Obs)
  current_signals : List MarketSignal
deriving DecidableEq

/-- `self.sentiment_history.get(symbol, [])`: read a window without creating
an entry. -/
def histGet (st : PredState) (symbol : String) : List Obs :=
  (st.sentiment_history.lookup symbol).getD []

/-- Overwrite (or create) the window stored for one symbol. -/
def setHist : List (String × List Obs) → String → List Obs →
    List (String × List Obs)
  | [], s, v => [(s, v)]
  | (k, w) :: rest, s, v =>
    if k = s then (s, v) :: rest else (k, w) :: setHist rest s v

/-- `np.mean` over a list, with the source's `if scores else 0.0` guard for
the empty case (`avg_sentiment` in `_calculate_momentum`). -/
def mean (l : List ℚ) : ℚ :=
  if l = [] then 0 else l.sum / (l.length : ℚ)

/-- `np.var`: population variance, the mean of squared deviations. -/
def variance (l : List ℚ) : ℚ :=
  mean (l.map (fun x => (x - mean l) ^ 2))

/-- `np.clip(x, -1.0, 1.0)`. -/
def clip (x : ℚ) : ℚ := max (-1) (min x 1)

/-- Python `list(history)[-20:]`: the most recent 20 observations (all of
them when fewer). -/
def recent20 (hist : List Obs) : List Obs :=
  hist.drop (hist.length - 20)

/-- `VolatilityPredictor._calculate_momentum` applied to one symbol's window:
0 below 10 observations, else the clipped difference of mean net sentiment
between the second and first halves of the most recent 20 observations. -/
def calcMomentum (hist : List Obs) : ℚ :=
  if hist.length < 10 then 0
  else
    clip (mean (((recent20 hist).drop ((recent20 hist).length / 2)).map net) -
          mean (((recent20 hist).take ((recent20 hist).length / 2)).map net))

/-- `VolatilityPredictor._estimate_volatility` applied to one window. -/
def estimateVolatility (hist : List Obs) : ℚ :=
  if hist.length < 5 then 1/2
  else min 1 (variance ((hist.drop (hist.length - 30)).map net) * 10)

/-- `np.mean(positive_scores)` over the batch handed to `_calculate_signal`. -/
def avgPos (batch : List SentimentAnalysis) : ℚ :=
  mean (batch.map SentimentAnalysis.pos)

/-- `np.mean(negative_scores)` over the batch. -/
def avgNeg (batch : List SentimentAnalysis) : ℚ :=
  mean (batch.map SentimentAnalysis.neg)

/-- `np.mean(confidences)` over the batch. -/
def avgConf (batch : List SentimentAnalysis) : ℚ :=
  mean (batch.map SentimentAnalysis.confidence)

/-- `net_sentiment = avg_positive - avg_negative`. -/
def netSent (batch : List SentimentAnalysis) : ℚ :=
  avgPos batch - avgNeg batch

/-- The threshold rule of `_calculate_signal` (lines 107-120): the pair
`(signal_type, strength)`. -/
def classify (netS m aPos aNeg aConf : ℚ) : SignalType × ℚ :=
  if netS > 3/10 ∧ 0 < m then
    (SignalType.BUY, min (95/100) (aPos * aConf))
  else if netS < -(3/10) ∧ m < 0 then
    (SignalType.SELL, min (95/100) (aNeg * aConf))
  else
    (SignalType.HOLD, 1/2)

/-- `VolatilityPredictor._calculate_signal`: `None` on an empty batch, else a
`MarketSignal` built from the batch aggregates, the symbol's momentum and its
volatility estimate. -/
def calcSignal (hist : List Obs) (symbol : String)
    (recent_sentiments : List SentimentAnalysis) : Option MarketSignal :=
  if recent_sentiments = [] then none
  else
    some
      { symbol := symbol
        signal := (classify (netSent recent_sentiments)
          (calcMomentum hist) (avgPos recent_sentiments)
          (avgNeg recent_sentiments) (avgConf recent_sentiments)).1
        strength := (classify (netSent recent_sentiments)
          (calcMomentum hist) (avgPos recent_sentiments)
          (avgNeg recent_sentiments) (avgConf recent_sentiments)).2
        sentiment_score := netSent recent_sentiments
        volume := recent_sentiments.length
        volatility_prediction := estimateVolatility hist
        confidence := avgConf recent_sentiments }

/-- `_calculate_signal` reading the momentum window from the current state. -/
def calcSignalS (st : PredState) (symbol : String)
    (recent_sentiments : List SentimentAnalysis) : Option MarketSignal :=
  calcSignal (histGet st symbol) symbol recent_sentiments

/-- One `symbol_sentiments[entity].append(result)` step of the
`defaultdict(list)` grouping in `generate_signals`: keys keep first-appearance
order, values keep append order. -/
def addToGroup : List (String × List SentimentAnalysis) → String →
    SentimentAnalysis → List (String × List SentimentAnalysis)
  | [], s, r => [(s, [r])]
  | (k, l) :: rest, s, r =>
    if k = s then (k, l ++ [r]) :: rest else (k, l) :: addToGroup rest s r

/-- One result's contribution to the grouping: append it to the group of
each entity in `result.entities`. -/
def groupStep (g : List (String × List SentimentAnalysis))
    (r : SentimentAnalysis) : List (String × List SentimentAnalysis) :=
  r.entities.foldl (fun g2 e => addToGroup g2 e r) g

/-- The grouping loop of `generate_signals`: for each result, for each entity
in `result.entities`, append the result to that entity's group. -/
def groupBatch (results : List SentimentAnalysis) :
    List (String × List SentimentAnalysis) :=
  results.foldl groupStep []

/-- The history-update loop of `generate_signals`:
`self.sentiment_history[entity].append({...})` for each (result, entity)
pair, through the `deque(maxlen=100)` append. -/
def updateHistory (st : PredState) (results : List SentimentAnalysis) :
    PredState :=
  results.foldl
    (fun s r =>
      r.entities.foldl
        (fun s2 e =>
          { s2 with
            sentiment_history :=
              setHist s2.sentiment_history e
                (pushCap 100 (histGet s2 e) (obsOf r)) })
        s)
    st

/-- `VolatilityPredictor.generate_signals`: update every entity's history,
compute one signal per grouped entity, and replace the signal cache. -/
def generate_signals (st : PredState) (results : List SentimentAnalysis) :
    List MarketSignal × PredState :=
  let st1 := updateHistory st results
  let signals := (groupBatch results).filterMap
    (fun p => calcSignalS st1 p.1 p.2)
  (signals, { st1 with current_signals := signals })

/-- `VolatilityPredictor.predict`: the insufficient-data fallback below 5
observations, else variance / momentum / volume over the last 50. The state
is returned unchanged (the source only reads `sentiment_history` via `.get`). -/
def predict (st : PredState) (symbol : String) :
    VolatilityPrediction × PredState :=
  let history := histGet st symbol
  if history.length < 5 then
    ({ symbol := symbol
       predicted_volatility := 1/2
       confidence := 3/10
       time_horizon := "1h"
       sentiment_variance := 0
       volume := 0
       momentum := 0 }, st)
  else
    ({ symbol := symbol
       predicted_volatility :=
         min 1 (variance ((history.drop (history.length - 50)).map net) * 10)
       confidence :=
         min (95/100) (((history.drop (history.length - 50)).length : ℚ) / 50)
       time_horizon := "1h"
       sentiment_variance :=
         variance ((history.drop (history.length - 50)).map net)
       volume := (history.drop (history.length - 50)).length
       momentum := calcMomentum history }, st)

/-- `VolatilityPredictor.get_current_signals`: `if symbol:` is Python
truthiness, so `None` and the empty string both return the whole cache;
otherwise the cache is filtered by the upper-cased symbol. -/
def get_current_signals (st : PredState) (symbol : Option String) :
    List MarketSignal × PredState :=
  match symbol with
  | none => (st.current_signals, st)
  | some s =>
    if s = "" then (st.current_signals, st)
    else (st.current_signals.filter (fun g => g.symbol = s.toUpper), st)

/-! ## ConnectionManager (Broadcast Hub) -/

/-- A WebSocket subscriber, abstracted to an identity plus whether its
`send_json` succeeds for the message being broadcast. -/
structure Subscriber where
  sid : Nat
  sendOk : Bool
deriving DecidableEq

/-- The `for connection in self.active_connections` sweep of `broadcast`:
returns the subscribers whose delivery succeeded and, in sweep order, the
`disconnected` list collected from failed deliveries. -/
def broadcastSweep : List Subscriber → List Subscriber × List Subscriber
  | [] => ([], [])
  | c :: rest =>
    let r := broadcastSweep rest
    if c.sendOk then (c :: r.1, r.2) else (r.1, c :: r.2)

/-- The clean-up loop of `broadcast`: for each collected connection,
`if conn in self.active_connections: self.active_connections.remove(conn)`. -/
def pruneAll (active disconnected : List Subscriber) : List Subscriber :=
  disconnected.foldl (fun acc c => if c ∈ acc then acc.erase c else acc) active

/-- `ConnectionManager.broadcast`: deliver to every current subscriber, then
remove the failed ones; returns (delivered-to, new active set). -/
def broadcast (active : List Subscriber) :
    List Subscriber × List Subscriber :=
  ((broadcastSweep active).1, pruneAll active (broadcastSweep active).2)

/-- `ConnectionManager.connect`: `self.active_connections.append(websocket)`. -/
def connect (active : List Subscriber) (s : Subscriber) : List Subscriber :=
  active ++ [s]

/-- `ConnectionManager.disconnect`: `self.active_connections.remove(websocket)`.
Python `list.remove` raises `ValueError` when the element is absent, embedded
as `none`. -/
def disconnect (active : List Subscriber) (s : Subscriber) :
    Option (List Subscriber) :=
  if s ∈ active then some (active.erase s) else none

/-! ## DataAggregator: demo backfill and RSS normalization -/

/-- The random draws `_generate_demo_articles` makes for article `i`, plus
the md5 hash and the `datetime.utcnow().timestamp()` suffix, passed in
explicitly. -/
structure DemoRand where
  md5 : String → Nat
  tsSuffix : String
  pickTitle : Nat → String
  pickSymbol : Nat → String
  pickSentiment : Nat → String

/-- The `i`-th article built by `_generate_demo_articles`: only the `source`
field is deterministic — `"Financial Times"` for even `i`, `"Bloomberg"`
otherwise. -/
def demoArticle (rnd : DemoRand) (i : Nat) : NewsItem :=
  { id := rnd.md5 (rnd.pickTitle i ++ "-" ++ toString i ++ "-" ++ rnd.tsSuffix)
    title := rnd.pickTitle i
    content := "Market analysts are " ++ rnd.pickSentiment i ++ " on " ++
      rnd.pickSymbol i ++
      " as recent developments suggest significant movement ahead. " ++
      "Traders are closely monitoring key support and resistance levels."
    url := "https://example.com/article-" ++ toString i
    source := if i % 2 = 0 then "Financial Times" else "Bloomberg"
    symbols := [rnd.pickSymbol i] }

/-- `_generate_demo_articles(count)`. -/
def generateDemoArticles (rnd : DemoRand) (count : Nat) : List NewsItem :=
  (List.range count).map (demoArticle rnd)

/-- The `source` given to an article normalized from a real RSS feed in
`_fetch_single_feed`: `feed.feed.get("title", "Unknown")`. -/
def rssArticleSource (feedTitle : Option String) : String :=
  feedTitle.getD "Unknown"

/-! ## Concrete inputs used by witnesses -/

/-- A sample article used to witness the dedup claims. -/
def itemA : NewsItem :=
  { id := 7, title := "t", content := "c", url := "u", source := "s",
    symbols := [] }

/-- `LEDGER_CAP + 3` articles with pairwise distinct fingerprints. -/
def artsK : List NewsItem :=
  (List.range (LEDGER_CAP + 3)).map (fun i => NewsItem.mk i "" "" "" "" [])

/-- A one-result batch mentioning AAPL with strongly positive scores. -/
def batchW : List SentimentAnalysis :=
  [{ pos := 8/10, neg := 1/10, confidence := 9/10, entities := ["AAPL"] }]

/-- Ten observations whose net sentiment values strictly increase. -/
def histW : List Obs :=
  [⟨0, 0, 1⟩, ⟨1, 0, 1⟩, ⟨2, 0, 1⟩, ⟨3, 0, 1⟩, ⟨4, 0, 1⟩,
   ⟨5, 0, 1⟩, ⟨6, 0, 1⟩, ⟨7, 0, 1⟩, ⟨8, 0, 1⟩, ⟨9, 0, 1⟩]

/-- Five subscribers of which #3 always fails delivery. -/
def active5 : List Subscriber :=
  [⟨1, true⟩, ⟨2, true⟩, ⟨3, false⟩, ⟨4, true⟩, ⟨5, true⟩]

/-- Concrete random draws for a demo-article counterexample. -/
def rndC9 : DemoRand :=
  { md5 := fun _ => 0, tsSuffix := "0", pickTitle := fun _ => "t",
    pickSymbol := fun _ => "AAPL", pickSentiment := fun _ => "bullish" }

/-! ## Claim theorems -/

theorem artsK_ids : artsK.map NewsItem.id = List.range (LEDGER_CAP + 3) := by
  unfold artsK
  rw [List.map_map]
  rw [show (NewsItem.id ∘ fun i => NewsItem.mk i "" "" "" "" []) = id from rfl]
  exact List.map_id _

/-- C1: for a non-empty batch with scores and confidences in [0,1],
`_calculate_signal` obeys the hard threshold rule: net > 0.3 with positive
momentum gives BUY with strength `min(0.95, mean_positive * mean_confidence)`;
net < -0.3 with negative momentum gives SELL with strength
`min(0.95, mean_negative * mean_confidence)`; every other case (boundary
values included) gives HOLD with strength 0.5. -/
theorem C1_signal_threshold (st : PredState) (sym : String)
    (batch : List SentimentAnalysis) (hne : batch ≠ [])
    (hbounds : ∀ r ∈ batch, 0 ≤ r.pos ∧ r.pos ≤ 1 ∧ 0 ≤ r.neg ∧ r.neg ≤ 1 ∧
      0 ≤ r.confidence ∧ r.confidence ≤ 1) :
    ∃ sig, calcSignalS st sym batch = some sig ∧
      (netSent batch > 3/10 ∧ 0 < calcMomentum (histGet st sym) →
        sig.signal = SignalType.BUY ∧
        sig.strength = min (95/100) (avgPos batch * avgConf batch)) ∧
      (netSent batch < -(3/10) ∧ calcMomentum (histGet st sym) < 0 →
        sig.signal = SignalType.SELL ∧
        sig.strength = min (95/100) (avgNeg batch * avgConf batch)) ∧
      (¬(netSent batch > 3/10 ∧ 0 < calcMomentum (histGet st sym)) →
       ¬(netSent batch < -(3/10) ∧ calcMomentum (histGet st sym) < 0) →
        sig.signal = SignalType.HOLD ∧ sig.strength = 1/2) := by
  unfold calcSignalS calcSignal
  rw [if_neg hne]
  refine ⟨_, rfl, ?_, ?_, ?_⟩
  · intro h
    show (classify _ _ _ _ _).1 = _ ∧ (classify _ _ _ _ _).2 = _
    unfold classify
    rw [if_pos h]
    exact ⟨rfl, rfl⟩
  · intro h
    show (classify _ _ _ _ _).1 = _ ∧ (classify _ _ _ _ _).2 = _
    unfold classify
    have hnot : ¬(netSent batch > 3/10 ∧ 0 < calcMomentum (histGet st sym)) := by
      rintro ⟨h1, _⟩
      rcases h with ⟨h3, _⟩
      linarith
    rw [if_neg hnot, if_pos h]
    exact ⟨rfl, rfl⟩
  · intro h1 h2
    show (classify _ _ _ _ _).1 = _ ∧ (classify _ _ _ _ _).2 = _
    unfold classify
    rw [if_neg h1, if_neg h2]
    exact ⟨rfl, rfl⟩

theorem C1_signal_threshold_witness :
    ∃ sig, calcSignalS ⟨[], []⟩ "AAPL" batchW = some sig ∧
      sig.signal = SignalType.HOLD ∧ sig.strength = 1/2 := by
  obtain ⟨sig, hs, _, _, h3⟩ :=
    C1_signal_threshold ⟨[], []⟩ "AAPL" batchW (by simp [batchW])
      (by norm_num [batchW])
  exact ⟨sig, hs, h3 (by simp [calcMomentum, histGet])
    (by simp [calcMomentum, histGet])⟩

/-- C2: `_deduplicate` forwards at most one item per fingerprint while the
fingerprint is in the Ledger: an item whose fingerprint is already in the
Ledger is dropped, the output never repeats a fingerprint, and an item with
a fresh fingerprint fed (even repeatedly) in one batch comes out exactly
once. -/
theorem C2_dedup_once (st : AggState) (articles : List NewsItem) :
    (∀ f ∈ st.processed_ids,
      (deduplicate st articles).1.filter (fun b => b.id = f) = []) ∧
    (∀ f : Nat,
      ((deduplicate st articles).1.filter (fun b => b.id = f)).length ≤ 1) ∧
    (∀ a ∈ articles, a.id ∉ st.processed_ids →
      ((deduplicate st articles).1.filter (fun b => b.id = a.id)).length = 1) := by
  unfold deduplicate
  refine ⟨?_, ?_, ?_⟩
  · intro f hf
    have h := dedupGo_count LEDGER_CAP articles st.processed_ids
      st.processed_ids f
    rw [if_pos hf] at h
    exact List.length_eq_zero.1 h
  · intro f
    rw [dedupGo_count]
    split
    · omega
    · split <;> omega
  · intro a ha hna
    rw [dedupGo_count, if_neg hna,
      if_pos (List.mem_map_of_mem NewsItem.id ha)]

theorem C2_dedup_once_witness :
    ((deduplicate ⟨[5], 0⟩ [itemA, itemA]).1.filter
      (fun b => b.id = itemA.id)).length = 1 :=
  (C2_dedup_once ⟨[5], 0⟩ [itemA, itemA]).2.2 itemA
    (List.mem_cons_self _ _) (by decide)

/-- C3: the dedup Ledger is a strict-FIFO ring of capacity 100000: after
feeding capacity+K distinct fingerprints through `_deduplicate` the Ledger
holds exactly the last capacity fingerprints in insertion order (the K
oldest were evicted), and the Ledger length never exceeds the capacity. -/
theorem C3_ledger_fifo (articles : List NewsItem) (K : Nat)
    (hnd : (articles.map NewsItem.id).Nodup)
    (hlen : articles.length = LEDGER_CAP + K) :
    (deduplicate ⟨[], 0⟩ articles).2.processed_ids =
      (articles.map NewsItem.id).drop K ∧
    (deduplicate ⟨[], 0⟩ articles).2.processed_ids.length = LEDGER_CAP ∧
    (∀ (st : AggState) (arts : List NewsItem),
      st.processed_ids.length ≤ LEDGER_CAP →
      (deduplicate st arts).2.processed_ids.length ≤ LEDGER_CAP) := by
  have hcap : 0 < LEDGER_CAP := by decide
  have hmain : (deduplicate ⟨[], 0⟩ articles).2.processed_ids =
      (articles.map NewsItem.id).drop K := by
    unfold deduplicate
    show (dedupGo LEDGER_CAP [] [] articles).2 = _
    rw [dedupGo_ledger LEDGER_CAP articles [] []
      (by intro a _ h; exact absurd h (List.not_mem_nil _)) hnd]
    rw [foldl_pushCap LEDGER_CAP hcap (articles.map NewsItem.id) []
      (by simp)]
    rw [List.nil_append, List.length_nil, Nat.zero_add, List.length_map,
      hlen, Nat.add_sub_cancel_left]
  refine ⟨hmain, ?_, ?_⟩
  · rw [hmain, List.length_drop, List.length_map, hlen]
    omega
  · intro st arts h
    unfold deduplicate
    exact dedupGo_ledger_le LEDGER_CAP hcap arts st.processed_ids
      st.processed_ids h

theorem C3_ledger_fifo_witness :
    (deduplicate ⟨[], 0⟩ artsK).2.processed_ids.length = LEDGER_CAP :=
  (C3_ledger_fifo artsK 3
    (by rw [artsK_ids]; exact List.nodup_range _)
    (by unfold artsK; rw [List.length_map, List.length_range])).2.1

/-- C5 counterexample: disconnecting a non-member is not a no-op — on the
empty active set, `disconnect` hits `list.remove` on a missing element and
raises `ValueError` (embedded as `none`) instead of returning the set
unchanged. -/
theorem C5_disconnect_counterexample :
    disconnect ([] : List Subscriber) ⟨1, true⟩ = none ∧
    disconnect ([] : List Subscriber) ⟨1, true⟩ ≠ some [] := by
  exact ⟨rfl, by decide⟩

/-- C5 (amended): `disconnect(s)` removes the first occurrence of `s` when
`s` is a member of the active set, and raises `ValueError` (it is not a
no-op) when `s` is not a member. -/
theorem C5_disconnect_amended (active : List Subscriber) (s : Subscriber) :
    (s ∈ active → disconnect active s = some (active.erase s)) ∧
    (s ∉ active → disconnect active s = none) := by
  constructor
  · intro h; unfold disconnect; rw [if_pos h]
  · intro h; unfold disconnect; rw [if_neg h]

theorem C5_disconnect_amended_witness :
    disconnect [⟨1, true⟩] ⟨1, true⟩ =
      some ([(⟨1, true⟩ : Subscriber)].erase ⟨1, true⟩) :=
  (C5_disconnect_amended [⟨1, true⟩] ⟨1, true⟩).1 (by decide)

/-- C7: `predict(symbol)` with zero recorded observations returns the literal
insufficient-data fallback — predicted volatility exactly 0.5 and confidence
exactly 0.3 — and raises no error (the embedding is total). -/
theorem C7_predict_fallback (st : PredState) (symbol : String)
    (h : histGet st symbol = []) :
    (predict st symbol).1.predicted_volatility = 1/2 ∧
    (predict st symbol).1.confidence = 3/10 := by
  unfold predict
  rw [h]
  norm_num

theorem C7_predict_fallback_witness :
    (predict ⟨[], []⟩ "TSLA").1.predicted_volatility = 1/2 ∧
    (predict ⟨[], []⟩ "TSLA").1.confidence = 3/10 :=
  C7_predict_fallback ⟨[], []⟩ "TSLA" rfl

/-- C8: the query operations `get_current_signals`, `predict` and
`get_daily_count` are read-only: they return the predictor state (histories
and signal cache) and the aggregator state (ledger and daily counter)
unchanged for every input. -/
theorem C8_queries_readonly (pst : PredState) (sym : String)
    (symq : Option String) (ast : AggState) :
    (predict pst sym).2 = pst ∧
    (get_current_signals pst symq).2 = pst ∧
    (get_daily_count ast).2 = ast := by
  refine ⟨?_, ?_, rfl⟩
  · simp only [predict]
    split <;> rfl
  · unfold get_current_signals
    cases symq with
    | none => rfl
    | some s => dsimp only; split <;> rfl

theorem broadcastSweep_fst (l : List Subscriber) :
    (broadcastSweep l).1 = l.filter (fun c => c.sendOk) := by
  induction l with
  | nil => rfl
  | cons c rest ih =>
    rw [broadcastSweep, List.filter_cons]
    cases hc : c.sendOk <;> simp [hc, ih]

theorem broadcastSweep_snd (l : List Subscriber) :
    (broadcastSweep l).2 = l.filter (fun c => !c.sendOk) := by
  induction l with
  | nil => rfl
  | cons c rest ih =>
    rw [broadcastSweep, List.filter_cons]
    cases hc : c.sendOk <;> simp [hc, ih]

theorem pruneAll_eq_filter :
    ∀ (ds acc : List Subscriber), acc.Nodup →
      pruneAll acc ds = acc.filter (fun x => decide (x ∉ ds)) := by
  intro ds
  induction ds with
  | nil =>
    intro acc _
    simp [pruneAll]
  | cons d ds ih =>
    intro acc hnd
    have hstep : (if d ∈ acc then acc.erase d else acc) =
        acc.filter (fun x => x != d) := by
      by_cases hd : d ∈ acc
      · rw [if_pos hd]
        exact hnd.erase_eq_filter d
      · rw [if_neg hd]
        refine (List.filter_eq_self.2 ?_).symm
        intro a ha
        simp only [bne_iff_ne, ne_eq, decide_eq_true_eq]
        exact fun h => hd (h ▸ ha)
    have : pruneAll acc (d :: ds) = pruneAll (acc.filter (fun x => x != d)) ds := by
      unfold pruneAll
      rw [List.foldl_cons, hstep]
    rw [this, ih _ (hnd.filter _), List.filter_filter]
    apply List.filter_congr
    intro x _
    by_cases h1 : x = d <;> by_cases h2 : x ∈ ds <;>
      simp [h1, h2, List.mem_cons]

/-- C4: `broadcast` attempts delivery to every subscriber present at broadcast
start; a failing subscriber does not prevent delivery to the others (exactly
the subscribers whose send succeeds receive the message), and the failing
subscribers are removed from the active set only after the sweep completes. -/
theorem C4_broadcast_isolation (active : List Subscriber)
    (hnd : active.Nodup) :
    (broadcast active).1 = active.filter (fun c => c.sendOk) ∧
    (broadcast active).2 = active.filter (fun c => c.sendOk) := by
  constructor
  · exact broadcastSweep_fst active
  · show pruneAll active (broadcastSweep active).2 = _
    rw [broadcastSweep_snd, pruneAll_eq_filter _ _ hnd]
    apply List.filter_congr
    intro x hx
    cases hs : x.sendOk <;> simp [List.mem_filter, hx, hs]

theorem C4_broadcast_isolation_witness :
    (broadcast active5).1 = [⟨1, true⟩, ⟨2, true⟩, ⟨4, true⟩, ⟨5, true⟩] ∧
    (broadcast active5).2 = [⟨1, true⟩, ⟨2, true⟩, ⟨4, true⟩, ⟨5, true⟩] :=
  ⟨((C4_broadcast_isolation active5 (by decide)).1).trans (by decide),
   ((C4_broadcast_isolation active5 (by decide)).2).trans (by decide)⟩

/-- C9 counterexample: synthetic backfill items are not distinguishable from
real-source items by the source field — a demo article carries source
`"Bloomberg"` (odd index) or `"Financial Times"` (even index), identical to
the source an article normalized from a real feed with that title carries. -/
theorem C9_demo_source_counterexample :
    (demoArticle rndC9 1).source = rssArticleSource (some "Bloomberg") ∧
    (demoArticle rndC9 0).source = rssArticleSource (some "Financial Times") :=
  ⟨rfl, rfl⟩

/-- C9 (amended): every synthetic backfill item carries source
`"Financial Times"` (even index) or `"Bloomberg"` (odd index) — names of real
publications that the real RSS path can also produce — so downstream
consumers cannot exclude synthetic items by the source field. -/
theorem C9_demo_source_amended (rnd : DemoRand) (count : Nat) :
    ∀ a ∈ generateDemoArticles rnd count,
      a.source = "Financial Times" ∨ a.source = "Bloomberg" := by
  intro a ha
  unfold generateDemoArticles at ha
  obtain ⟨i, _, rfl⟩ := List.mem_map.1 ha
  unfold demoArticle
  dsimp only
  by_cases h : i % 2 = 0
  · left; rw [if_pos h]
  · right; rw [if_neg h]

theorem C9_demo_source_amended_witness :
    (demoArticle rndC9 0).source = "Financial Times" ∨
    (demoArticle rndC9 0).source = "Bloomberg" :=
  C9_demo_source_amended rndC9 1 (demoArticle rndC9 0)
    (List.mem_map.2 ⟨0, List.mem_range.2 (by norm_num), rfl⟩)

/-! ## Mean and clip lemmas for the momentum sign property -/

theorem sum_le_mul (l : List ℚ) (c : ℚ) (h : ∀ x ∈ l, x ≤ c) :
    l.sum ≤ c * l.length := by
  induction l with
  | nil => simp
  | cons a t ih =>
    rw [List.sum_cons, List.length_cons]
    have h1 := ih (fun x hx => h x (List.mem_cons_of_mem _ hx))
    have h2 := h a (List.mem_cons_self _ _)
    have h3 : c * ((t.length : ℚ) + 1) = c * t.length + c := by ring
    push_cast
    rw [h3]
    linarith

theorem mul_le_sum (l : List ℚ) (c : ℚ) (h : ∀ x ∈ l, c ≤ x) :
    c * l.length ≤ l.sum := by
  induction l with
  | nil => simp
  | cons a t ih =>
    rw [List.sum_cons, List.length_cons]
    have h1 := ih (fun x hx => h x (List.mem_cons_of_mem _ hx))
    have h2 := h a (List.mem_cons_self _ _)
    have h3 : c * ((t.length : ℚ) + 1) = c * t.length + c := by ring
    push_cast
    rw [h3]
    linarith

theorem sum_lt_mul (l : List ℚ) (c : ℚ) (h0 : l ≠ []) (h : ∀ x ∈ l, x < c) :
    l.sum < c * l.length := by
  obtain ⟨a, t, rfl⟩ := List.exists_cons_of_ne_nil h0
  rw [List.sum_cons, List.length_cons]
  have h1 := sum_le_mul t c (fun x hx => le_of_lt (h x (List.mem_cons_of_mem _ hx)))
  have h2 := h a (List.mem_cons_self _ _)
  have h3 : c * ((t.length : ℚ) + 1) = c * t.length + c := by ring
  push_cast
  rw [h3]
  linarith

theorem mul_lt_sum (l : List ℚ) (c : ℚ) (h0 : l ≠ []) (h : ∀ x ∈ l, c < x) :
    c * l.length < l.sum := by
  obtain ⟨a, t, rfl⟩ := List.exists_cons_of_ne_nil h0
  rw [List.sum_cons, List.length_cons]
  have h1 := mul_le_sum t c (fun x hx => le_of_lt (h x (List.mem_cons_of_mem _ hx)))
  have h2 := h a (List.mem_cons_self _ _)
  have h3 : c * ((t.length : ℚ) + 1) = c * t.length + c := by ring
  push_cast
  rw [h3]
  linarith

theorem sum_eq_mul (l : List ℚ) (c : ℚ) (h : ∀ x ∈ l, x = c) :
    l.sum = c * l.length := by
  induction l with
  | nil => simp
  | cons a t ih =>
    rw [List.sum_cons, List.length_cons,
      ih (fun x hx => h x (List.mem_cons_of_mem _ hx)),
      h a (List.mem_cons_self _ _)]
    push_cast
    ring

theorem length_pos_q (l : List ℚ) (h : l ≠ []) : (0 : ℚ) < l.length := by
  exact_mod_cast List.length_pos.2 h

theorem mean_lt (l : List ℚ) (c : ℚ) (h0 : l ≠ []) (h : ∀ x ∈ l, x < c) :
    mean l < c := by
  unfold mean
  rw [if_neg h0, div_lt_iff₀ (length_pos_q l h0)]
  exact sum_lt_mul l c h0 h |>.trans_le (by ring_nf; exact le_refl _)

theorem lt_mean (l : List ℚ) (c : ℚ) (h0 : l ≠ []) (h : ∀ x ∈ l, c < x) :
    c < mean l := by
  unfold mean
  rw [if_neg h0, lt_div_iff₀ (length_pos_q l h0)]
  exact (mul_lt_sum l c h0 h).trans_le (le_refl _)

theorem mean_le (l : List ℚ) (c : ℚ) (h0 : l ≠ []) (h : ∀ x ∈ l, x ≤ c) :
    mean l ≤ c := by
  unfold mean
  rw [if_neg h0, div_le_iff₀ (length_pos_q l h0)]
  have := sum_le_mul l c h
  linarith

theorem le_mean (l : List ℚ) (c : ℚ) (h0 : l ≠ []) (h : ∀ x ∈ l, c ≤ x) :
    c ≤ mean l := by
  unfold mean
  rw [if_neg h0, le_div_iff₀ (length_pos_q l h0)]
  have := mul_le_sum l c h
  linarith

theorem mean_eq (l : List ℚ) (c : ℚ) (h0 : l ≠ []) (h : ∀ x ∈ l, x = c) :
    mean l = c := by
  unfold mean
  rw [if_neg h0, sum_eq_mul l c h, mul_div_assoc,
    div_self (ne_of_gt (length_pos_q l h0)), mul_one]

theorem clip_pos {x : ℚ} (h : 0 < x) : 0 < clip x := by
  unfold clip
  rcases le_total x 1 with h1 | h1
  · rw [min_eq_left h1]
    exact lt_max_of_lt_right h
  · rw [min_eq_right h1]
    exact lt_max_of_lt_right one_pos

theorem clip_neg {x : ℚ} (h : x < 0) : clip x < 0 := by
  unfold clip
  rw [min_eq_left (by linarith : x ≤ 1)]
  exact max_lt (by norm_num) h

theorem clip_zero : clip 0 = 0 := by
  unfold clip
  norm_num

theorem calcMomentum_eq (hist : List Obs) (h10 : 10 ≤ hist.length) :
    calcMomentum hist =
      clip (mean (((recent20 hist).map net).drop ((recent20 hist).length / 2)) -
            mean (((recent20 hist).map net).take ((recent20 hist).length / 2))) := by
  unfold calcMomentum
  rw [if_neg (by omega), List.map_drop, List.map_take]

/-- C6: for an entity with at least 10 observations, momentum is positive on
a strictly increasing window of net sentiment values, negative on a strictly
decreasing one, and exactly 0 on a constant one (momentum being the clipped
difference of mean net sentiment between the second and first halves of the
most recent 20 observations). -/
theorem C6_momentum_sign (hist : List Obs) (h10 : 10 ≤ hist.length) :
    (((recent20 hist).map net).Pairwise (· < ·) → 0 < calcMomentum hist) ∧
    (((recent20 hist).map net).Pairwise (fun a b => b < a) →
      calcMomentum hist < 0) ∧
    (∀ c : ℚ, (∀ x ∈ (recent20 hist).map net, x = c) →
      calcMomentum hist = 0) := by
  have hrlen : 10 ≤ (recent20 hist).length := by
    unfold recent20
    rw [List.length_drop]
    omega
  have hCM := calcMomentum_eq hist h10
  set N := (recent20 hist).map net with hN
  set k := (recent20 hist).length / 2 with hk
  have hNlen : N.length = (recent20 hist).length := by
    rw [hN, List.length_map]
  have htake_ne : N.take k ≠ [] := by
    intro h
    have := congrArg List.length h
    rw [List.length_take, List.length_nil] at this
    omega
  have hdrop_ne : N.drop k ≠ [] := by
    intro h
    have := congrArg List.length h
    rw [List.length_drop, List.length_nil] at this
    omega
  have hsplit : N.take k ++ N.drop k = N := List.take_append_drop k N
  obtain ⟨y0, t, hdt⟩ := List.exists_cons_of_ne_nil hdrop_ne
  have hy0mem : y0 ∈ N.drop k := by rw [hdt]; exact List.mem_cons_self _ _
  refine ⟨?_, ?_, ?_⟩
  · intro hpair
    rw [← hsplit] at hpair
    obtain ⟨_, hpd, hcross⟩ := List.pairwise_append.1 hpair
    have h1 : mean (N.take k) < y0 :=
      mean_lt _ _ htake_ne (fun x hx => hcross x hx y0 hy0mem)
    have h2 : y0 ≤ mean (N.drop k) := by
      apply le_mean _ _ hdrop_ne
      intro y hy
      rw [hdt] at hy hpd
      rcases List.mem_cons.1 hy with rfl | hy2
      · exact le_refl _
      · exact le_of_lt ((List.pairwise_cons.1 hpd).1 y hy2)
    rw [hCM]
    exact clip_pos (by linarith)
  · intro hpair
    rw [← hsplit] at hpair
    obtain ⟨_, hpd, hcross⟩ := List.pairwise_append.1 hpair
    have h1 : y0 < mean (N.take k) :=
      lt_mean _ _ htake_ne (fun x hx => hcross x hx y0 hy0mem)
    have h2 : mean (N.drop k) ≤ y0 := by
      apply mean_le _ _ hdrop_ne
      intro y hy
      rw [hdt] at hy hpd
      rcases List.mem_cons.1 hy with rfl | hy2
      · exact le_refl _
      · exact le_of_lt ((List.pairwise_cons.1 hpd).1 y hy2)
    rw [hCM]
    exact clip_neg (by linarith)
  · intro c hc
    have h1 : mean (N.take k) = c :=
      mean_eq _ _ htake_ne (fun x hx => hc x (List.mem_of_mem_take hx))
    have h2 : mean (N.drop k) = c :=
      mean_eq _ _ hdrop_ne (fun x hx => hc x (List.mem_of_mem_drop hx))
    rw [hCM, h1, h2, sub_self, clip_zero]

theorem C6_momentum_sign_witness : 0 < calcMomentum histW :=
  (C6_momentum_sign histW (by norm_num [histW])).1
    (by norm_num [recent20, histW, net, List.pairwise_cons])

/-! ## Grouping lemmas for the signal cache -/

theorem addToGroup_keys (g : List (String × List SentimentAnalysis))
    (s : String) (r : SentimentAnalysis) :
    (addToGroup g s r).map Prod.fst =
      if s ∈ g.map Prod.fst then g.map Prod.fst
      else g.map Prod.fst ++ [s] := by
  induction g with
  | nil => simp [addToGroup]
  | cons p g ih =>
    obtain ⟨k, l⟩ := p
    rw [addToGroup]
    by_cases hks : k = s
    · rw [if_pos hks]
      subst hks
      rw [List.map_cons, List.map_cons,
        if_pos (List.mem_cons_self _ _)]
    · rw [if_neg hks, List.map_cons, List.map_cons, ih]
      by_cases hmem : s ∈ g.map Prod.fst
      · rw [if_pos hmem,
          if_pos (List.mem_cons_of_mem _ hmem)]
      · have : ¬ s ∈ (k, l).1 :: g.map Prod.fst := by
          rw [List.mem_cons]
          exact fun h => h.elim (fun h1 => hks h1.symm) hmem
        rw [if_neg hmem, if_neg this, List.cons_append]

theorem mem_addToGroup_keys (g : List (String × List SentimentAnalysis))
    (s e : String) (r : SentimentAnalysis) :
    e ∈ (addToGroup g s r).map Prod.fst ↔
      e ∈ g.map Prod.fst ∨ e = s := by
  rw [addToGroup_keys]
  by_cases hmem : s ∈ g.map Prod.fst
  · rw [if_pos hmem]
    constructor
    · exact Or.inl
    · rintro (h1 | rfl)
      · exact h1
      · exact hmem
  · rw [if_neg hmem, List.mem_append, List.mem_singleton]

theorem addToGroup_nodup (g : List (String × List SentimentAnalysis))
    (s : String) (r : SentimentAnalysis)
    (hnd : (g.map Prod.fst).Nodup) :
    ((addToGroup g s r).map Prod.fst).Nodup := by
  rw [addToGroup_keys]
  by_cases hmem : s ∈ g.map Prod.fst
  · rw [if_pos hmem]; exact hnd
  · rw [if_neg hmem]
    rw [List.nodup_append]
    exact ⟨hnd, List.nodup_singleton s,
      fun a ha hb => hmem ((List.mem_singleton.1 hb) ▸ ha)⟩

theorem addToGroup_vals (s : String) (r : SentimentAnalysis) :
    ∀ (g : List (String × List SentimentAnalysis)),
      (∀ p ∈ g, p.2 ≠ []) → ∀ p ∈ addToGroup g s r, p.2 ≠ [] := by
  intro g
  induction g with
  | nil =>
    intro _ p hp
    rw [addToGroup] at hp
    rw [List.mem_singleton.1 hp]
    exact List.cons_ne_nil _ _
  | cons q g ih =>
    obtain ⟨k, l⟩ := q
    intro h p hp
    rw [addToGroup] at hp
    by_cases hks : k = s
    · rw [if_pos hks] at hp
      rcases List.mem_cons.1 hp with hp1 | hp2
      · rw [hp1]
        exact List.append_ne_nil_of_right_ne_nil l (List.cons_ne_nil _ _)
      · exact h p (List.mem_cons_of_mem _ hp2)
    · rw [if_neg hks] at hp
      rcases List.mem_cons.1 hp with hp1 | hp2
      · rw [hp1]
        exact h (k, l) (List.mem_cons_self _ _)
      · exact ih (fun q hq => h q (List.mem_cons_of_mem _ hq)) p hp2

theorem groupStep_keys_mem (r : SentimentAnalysis) :
    ∀ (es : List String) (g : List (String × List SentimentAnalysis))
      (e : String),
      e ∈ (es.foldl (fun g2 x => addToGroup g2 x r) g).map Prod.fst ↔
        e ∈ g.map Prod.fst ∨ e ∈ es := by
  intro es
  induction es with
  | nil =>
    intro g e
    rw [List.foldl_nil]
    simp
  | cons x es ih =>
    intro g e
    rw [List.foldl_cons, ih, mem_addToGroup_keys, List.mem_cons]
    tauto

theorem groupStep_nodup (r : SentimentAnalysis) :
    ∀ (es : List String) (g : List (String × List SentimentAnalysis)),
      (g.map Prod.fst).Nodup →
      ((es.foldl (fun g2 x => addToGroup g2 x r) g).map Prod.fst).Nodup := by
  intro es
  induction es with
  | nil => intro g h; exact h
  | cons x es ih =>
    intro g h
    rw [List.foldl_cons]
    exact ih _ (addToGroup_nodup g x r h)

theorem groupStep_vals (r : SentimentAnalysis) :
    ∀ (es : List String) (g : List (String × List SentimentAnalysis)),
      (∀ p ∈ g, p.2 ≠ []) →
      ∀ p ∈ es.foldl (fun g2 x => addToGroup g2 x r) g, p.2 ≠ [] := by
  intro es
  induction es with
  | nil => intro g h; exact h
  | cons x es ih =>
    intro g h
    rw [List.foldl_cons]
    exact ih _ (addToGroup_vals x r g h)

theorem groupBatch_aux_mem :
    ∀ (results : List SentimentAnalysis)
      (g : List (String × List SentimentAnalysis)) (e : String),
      e ∈ (results.foldl groupStep g).map Prod.fst ↔
        e ∈ g.map Prod.fst ∨
          e ∈ results.flatMap SentimentAnalysis.entities := by
  intro results
  induction results with
  | nil =>
    intro g e
    rw [List.foldl_nil]
    simp
  | cons r rs ih =>
    intro g e
    rw [List.foldl_cons, ih, List.flatMap_cons, List.mem_append]
    rw [show groupStep g r = r.entities.foldl (fun g2 x => addToGroup g2 x r) g
      from rfl]
    rw [groupStep_keys_mem r r.entities g e]
    tauto

theorem groupBatch_mem (results : List SentimentAnalysis) (e : String) :
    e ∈ (groupBatch results).map Prod.fst ↔
      e ∈ results.flatMap SentimentAnalysis.entities := by
  unfold groupBatch
  rw [groupBatch_aux_mem]
  simp

theorem groupBatch_aux_nodup :
    ∀ (results : List SentimentAnalysis)
      (g : List (String × List SentimentAnalysis)),
      (g.map Prod.fst).Nodup →
      ((results.foldl groupStep g).map Prod.fst).Nodup := by
  intro results
  induction results with
  | nil => intro g h; exact h
  | cons r rs ih =>
    intro g h
    rw [List.foldl_cons]
    exact ih _ (groupStep_nodup r r.entities g h)

theorem groupBatch_nodup (results : List SentimentAnalysis) :
    ((groupBatch results).map Prod.fst).Nodup :=
  groupBatch_aux_nodup results [] (by simp)

theorem groupBatch_aux_vals :
    ∀ (results : List SentimentAnalysis)
      (g : List (String × List SentimentAnalysis)),
      (∀ p ∈ g, p.2 ≠ []) →
      ∀ p ∈ results.foldl groupStep g, p.2 ≠ [] := by
  intro results
  induction results with
  | nil => intro g h; exact h
  | cons r rs ih =>
    intro g h
    rw [List.foldl_cons]
    exact ih _ (groupStep_vals r r.entities g h)

theorem groupBatch_vals (results : List SentimentAnalysis) :
    ∀ p ∈ groupBatch results, p.2 ≠ [] :=
  groupBatch_aux_vals results [] (by simp)

theorem calcSignalS_some (st : PredState)
    (p : String × List SentimentAnalysis) (h : p.2 ≠ []) :
    ∃ sig, calcSignalS st p.1 p.2 = some sig ∧ sig.symbol = p.1 := by
  unfold calcSignalS calcSignal
  rw [if_neg h]
  exact ⟨_, rfl, rfl⟩

theorem filterMap_signals_symbols (st : PredState) :
    ∀ (groups : List (String × List SentimentAnalysis)),
      (∀ p ∈ groups, p.2 ≠ []) →
      (groups.filterMap (fun p => calcSignalS st p.1 p.2)).map
          MarketSignal.symbol = groups.map Prod.fst := by
  intro groups
  induction groups with
  | nil => intro _; rfl
  | cons p gs ih =>
    intro h
    obtain ⟨sig, hsig, hsym⟩ :=
      calcSignalS_some st p (h p (List.mem_cons_self _ _))
    rw [List.filterMap_cons]
    simp only [hsig]
    rw [List.map_cons, List.map_cons, hsym,
      ih (fun q hq => h q (List.mem_cons_of_mem _ hq))]

theorem length_filter_eq_of_nodup_map {α : Type} (f : α → String) :
    ∀ (ls : List α), (ls.map f).Nodup → ∀ e : String,
      (ls.filter (fun s => f s = e)).length =
        if e ∈ ls.map f then 1 else 0 := by
  intro ls
  induction ls with
  | nil => intro _ e; simp
  | cons a ls ih =>
    intro hnd e
    rw [List.map_cons, List.nodup_cons] at hnd
    rw [List.filter_cons, List.map_cons]
    by_cases hfa : f a = e
    · rw [if_pos (by simp [hfa]), List.length_cons, ih hnd.2 e,
        if_neg (hfa ▸ hnd.1),
        if_pos (List.mem_cons.2 (Or.inl hfa.symm))]
    · rw [if_neg (by simp [hfa]), ih hnd.2 e]
      have hfa2 : ¬ e = f a := fun h => hfa h.symm
      rw [if_congr (List.mem_cons.trans (or_iff_right hfa2)) rfl rfl]

/-- C10: after `generate_signals(results)`, the signal cache holds exactly one
MarketSignal for each entity appearing in the entity list of at least one
result of the batch, and none for any other entity — signals for entities
absent from the batch are discarded, not retained from the previous cycle. -/
theorem C10_signal_cache (st : PredState) (results : List SentimentAnalysis)
    (e : String) :
    (((generate_signals st results).2.current_signals).filter
      (fun s => s.symbol = e)).length =
      if e ∈ results.flatMap SentimentAnalysis.entities then 1 else 0 := by
  unfold generate_signals
  dsimp only
  have hvals := groupBatch_vals results
  have hsym := filterMap_signals_symbols (updateHistory st results)
    (groupBatch results) hvals
  rw [length_filter_eq_of_nodup_map MarketSignal.symbol _
    (by rw [hsym]; exact groupBatch_nodup results) e]
  rw [hsym]
  rw [if_congr (groupBatch_mem results e) rfl rfl]

end NeuroFinance
